import Mathlib

/-!
Verification of the MeterReader 7-segment decoding pipeline and CSV codec.

Strings from the TypeScript source are modelled as `List Char`; JavaScript
numbers are modelled as `ℚ` (the arithmetic in the scored/filtered code paths
is exact at these magnitudes); nullable values as `Option`; thrown errors as
`Except`.  External collaborators (the OpenCV primitives, `Date`, the DOM) are
modelled as explicit parameters or opaque inputs, never as stubs of repository
code.
-/

namespace MeterReader

/-- State of one 7-segment digit cell: one Boolean per segment a–g
(`interface SegmentState` in the client source). -/
structure SegmentState where
  a : Bool
  b : Bool
  c : Bool
  d : Bool
  e : Bool
  f : Bool
  g : Bool
deriving DecidableEq, Repr

/-- Lookup table of `segmentsToDigit`: the 17 known 7-bit patterns
(keys concatenate segments in order a,b,c,d,e,f,g). -/
def digitPatterns : List (String × String) :=
  [("1111110", "0"),
   ("0110000", "1"),
   ("1101101", "2"),
   ("1111001", "3"),
   ("0110011", "4"),
   ("1011011", "5"),
   ("1011111", "6"),
   ("1110000", "7"),
   ("1111111", "8"),
   ("1111011", "9"),
   ("1110111", "A"),
   ("0011111", "b"),
   ("1001110", "C"),
   ("0111101", "d"),
   ("1001111", "E"),
   ("1000111", "F"),
   ("0000000", " ")]

/-- Pattern string built by `segmentsToDigit`: segments concatenated in order
a,b,c,d,e,f,g, `'1'` for on and `'0'` for off. -/
def patternOf (s : SegmentState) : String :=
  String.mk
    [if s.a then '1' else '0',
     if s.b then '1' else '0',
     if s.c then '1' else '0',
     if s.d then '1' else '0',
     if s.e then '1' else '0',
     if s.f then '1' else '0',
     if s.g then '1' else '0']

/-- The digit decoder `segmentsToDigit`: exact table lookup on the pattern
string, `"?"` for unmapped patterns (`digitPatterns[pattern] || '?'`; every
table value is a nonempty, hence truthy, string). -/
def segmentsToDigit (s : SegmentState) : String :=
  (digitPatterns.lookup (patternOf s)).getD "?"

/-- All 128 segment states, for counting mapped/unmapped patterns. -/
def allStates : List SegmentState :=
  [false, true].flatMap fun a =>
    [false, true].flatMap fun b =>
      [false, true].flatMap fun c =>
        [false, true].flatMap fun d =>
          [false, true].flatMap fun e =>
            [false, true].flatMap fun f =>
              [false, true].map fun g => SegmentState.mk a b c d e f g

/-- C3: the digit decoder is total and pure: every segment state yields exactly
one character; the table has 17 entries with pairwise distinct 7-bit keys; a
state whose pattern is not a table key decodes to the sentinel `"?"`, and one
whose pattern is a key decodes to that key's table entry; all-off decodes to a
blank space and all-on (`"1111111"`) decodes to `"8"`; exactly 2^7 − 17 = 111
of the 128 states are unmapped. -/
theorem claim_C3 :
    (∀ a b c d e f g : Bool,
      (segmentsToDigit (SegmentState.mk a b c d e f g)).length = 1) ∧
    digitPatterns.length = 17 ∧
    (digitPatterns.map Prod.fst).Nodup ∧
    (∀ p ∈ digitPatterns.map Prod.fst, p.length = 7) ∧
    (∀ a b c d e f g : Bool,
      patternOf (SegmentState.mk a b c d e f g) ∉ digitPatterns.map Prod.fst →
        segmentsToDigit (SegmentState.mk a b c d e f g) = "?") ∧
    (∀ a b c d e f g : Bool,
      patternOf (SegmentState.mk a b c d e f g) ∈ digitPatterns.map Prod.fst →
        (patternOf (SegmentState.mk a b c d e f g),
          segmentsToDigit (SegmentState.mk a b c d e f g)) ∈ digitPatterns) ∧
    segmentsToDigit (SegmentState.mk false false false false false false false) = " " ∧
    segmentsToDigit (SegmentState.mk true true true true true true true) = "8" ∧
    allStates.length = 128 ∧
    (allStates.filter fun s => segmentsToDigit s = "?").length = 128 - 17 := by
  set_option maxRecDepth 100000 in decide

/-! ## String utilities shared by the normalizer and the CSV codec -/

/-- Characters kept by the cleanup regex `[^0-9.\-]` of `formatReadingValue`. -/
def keepChar (c : Char) : Bool := c.isDigit || c = '.' || c = '-'

/-- JavaScript `String.prototype.split(sep)` for a one-character separator. -/
def splitOnChar (sep : Char) : List Char → List (List Char)
  | [] => [[]]
  | c :: cs =>
    match splitOnChar sep cs with
    | [] => [[]]
    | p :: ps => if c = sep then [] :: p :: ps else (c :: p) :: ps

/-- JavaScript `Array.prototype.join(sep)` for a one-character separator. -/
def joinSep (sep : Char) : List (List Char) → List Char
  | [] => []
  | [p] => p
  | p :: ps => p ++ sep :: joinSep sep ps

/-- JavaScript `String.prototype.trim` on the character-list model. -/
def trimL (l : List Char) : List Char :=
  ((l.dropWhile Char.isWhitespace).reverse.dropWhile Char.isWhitespace).reverse

theorem splitOnChar_ne_nil (sep : Char) (l : List Char) : splitOnChar sep l ≠ [] := by
  cases l with
  | nil => simp [splitOnChar]
  | cons c cs =>
    simp only [splitOnChar]
    rcases h : splitOnChar sep cs with _ | ⟨p, ps⟩ <;> simp
    split <;> simp

theorem joinSep_splitOnChar (sep : Char) (l : List Char) :
    joinSep sep (splitOnChar sep l) = l := by
  induction l with
  | nil => rfl
  | cons c cs ih =>
    simp only [splitOnChar]
    rcases h : splitOnChar sep cs with _ | ⟨p, ps⟩
    · exact absurd h (splitOnChar_ne_nil sep cs)
    · rw [h] at ih
      by_cases hc : c = sep
      · subst hc
        simpa [joinSep] using ih
      · simp only [if_neg hc]
        cases ps with
        | nil => simpa [joinSep] using ih
        | cons q qs => simpa [joinSep] using ih

theorem not_mem_of_mem_splitOnChar (sep : Char) (l : List Char) :
    ∀ p ∈ splitOnChar sep l, sep ∉ p := by
  induction l with
  | nil => simp [splitOnChar]
  | cons c cs ih =>
    simp only [splitOnChar]
    rcases h : splitOnChar sep cs with _ | ⟨p, ps⟩
    · exact absurd h (splitOnChar_ne_nil sep cs)
    · rw [h] at ih
      by_cases hc : c = sep
      · subst hc
        intro q hq
        have hq2 : q = [] ∨ q ∈ p :: ps := by simpa using hq
        rcases hq2 with hq | hq
        · subst hq
          exact List.not_mem_nil _
        · exact ih q (by simpa using hq)
      · simp only [if_neg hc]
        intro q hq
        simp only [List.mem_cons] at hq
        rcases hq with hq | hq
        · subst hq
          intro hmem
          simp only [List.mem_cons] at hmem
          rcases hmem with hmem | hmem
          · exact hc hmem.symm
          · exact ih p (by simp) hmem
        · exact ih q (by simp [hq])

theorem length_splitOnChar (sep : Char) (l : List Char) :
    (splitOnChar sep l).length = l.countP (· == sep) + 1 := by
  induction l with
  | nil => simp [splitOnChar]
  | cons c cs ih =>
    simp only [splitOnChar]
    rcases h : splitOnChar sep cs with _ | ⟨p, ps⟩
    · exact absurd h (splitOnChar_ne_nil sep cs)
    · rw [h] at ih
      simp only [List.length_cons] at ih
      by_cases hc : c = sep
      · simp [hc, List.countP_cons]
        omega
      · simp [hc, List.countP_cons]
        omega

/-! ## The reading value normalizer (`formatReadingValue`, opencv-service.ts) -/

/-- Multiple-decimal-point handling of `formatReadingValue`: split on `'.'`
and, when more than two parts result, rebuild as
`parts[0] + '.' + parts.slice(1).join('')`. -/
def mergeDots (l : List Char) : List Char :=
  match splitOnChar '.' l with
  | [] => l
  | p :: ps => if ps.length > 1 then p ++ '.' :: ps.flatten else l

/-- Leading-dot fixup `cleaned.replace(/^\./, '0.')`. -/
def fixLeadingDot : List Char → List Char
  | '.' :: cs => '0' :: '.' :: cs
  | l => l

/-- Trailing-dot fixup `cleaned.replace(/\.$/, '')`. -/
def fixTrailingDot (l : List Char) : List Char :=
  if l.getLast? = some '.' then l.dropLast else l

/-- The reading value normalizer `formatReadingValue` of `opencv-service.ts`:
strip to `[0-9.\-]`, collapse extra decimal points, fix a leading/trailing
dot, and map degenerate results to `"0"`. -/
def formatReadingValue (rawValue : List Char) : List Char :=
  if rawValue = [] then ['0']
  else
    let cleaned := rawValue.filter keepChar
    let cleaned1 := mergeDots cleaned
    let cleaned2 := fixTrailingDot (fixLeadingDot cleaned1)
    if cleaned2 = [] ∨ cleaned2 = ['-'] ∨ cleaned2 = ['.'] then ['0'] else cleaned2

/-- Dot removal, used to phrase the spec's "concatenates the remaining
fragments after it" clause: every `'.'` is dropped. -/
def dropDots (l : List Char) : List Char := l.filter (· != '.')

/-- Spec-side reading of the multiple-dot rule: keep the first `'.'` and
remove every later one. -/
def keepFirstDot : List Char → List Char
  | [] => []
  | c :: cs => if c = '.' then '.' :: dropDots cs else c :: keepFirstDot cs

/-- Normalizer exactly as the spec words it: strip all characters except
digits, `.` and `-`; keep only the first dot; a leading dot becomes `0.`; a
trailing dot is dropped; an empty, `-`, or `.` result becomes `"0"`. -/
def normSpec (raw : List Char) : List Char :=
  let stripped := raw.filter keepChar
  let oneDot := keepFirstDot stripped
  let fixedUp := fixTrailingDot (fixLeadingDot oneDot)
  if fixedUp = [] ∨ fixedUp = ['-'] ∨ fixedUp = ['.'] then ['0'] else fixedUp

theorem dropDots_eq_self (l : List Char) (h : '.' ∉ l) : dropDots l = l := by
  rw [dropDots, List.filter_eq_self]
  intro c hc
  simp only [bne_iff_ne, ne_eq]
  intro hdot
  exact h (hdot ▸ hc)

theorem countP_dot_eq_zero_iff (l : List Char) :
    l.countP (· == '.') = 0 ↔ '.' ∉ l := by
  rw [List.countP_eq_zero]
  constructor
  · intro h hmem
    simpa using h '.' hmem
  · intro h c hc
    simp only [beq_iff_eq]
    intro hdot
    exact h (hdot ▸ hc)

theorem keepFirstDot_eq_self (l : List Char) (h : l.countP (· == '.') ≤ 1) :
    keepFirstDot l = l := by
  induction l with
  | nil => rfl
  | cons c cs ih =>
    rw [List.countP_cons] at h
    by_cases hc : c = '.'
    · subst hc
      have hcs : cs.countP (· == '.') = 0 := by
        simp only [beq_self_eq_true, if_true] at h
        omega
      simp [keepFirstDot, dropDots_eq_self cs ((countP_dot_eq_zero_iff cs).mp hcs)]
    · have hb : (c == '.') = false := by simpa using hc
      rw [hb] at h
      simp at h
      simp only [keepFirstDot, if_neg hc, ih h]

theorem keepFirstDot_append_dot (p rest : List Char) (hp : '.' ∉ p) :
    keepFirstDot (p ++ '.' :: rest) = p ++ '.' :: dropDots rest := by
  induction p with
  | nil => simp [keepFirstDot]
  | cons c cs ih =>
    have hc : c ≠ '.' := fun hc => hp (by simp [hc])
    simp only [List.cons_append, keepFirstDot, if_neg hc]
    rw [List.append_eq] at *
    rw [ih (fun hm => hp (by simp [hm]))]

theorem dropDots_joinSep (ps : List (List Char)) (h : ∀ p ∈ ps, '.' ∉ p) :
    dropDots (joinSep '.' ps) = ps.flatten := by
  induction ps with
  | nil => rfl
  | cons q qs ih =>
    cases qs with
    | nil =>
      simp only [joinSep, List.flatten_cons, List.flatten_nil, List.append_nil]
      exact dropDots_eq_self q (h q (by simp))
    | cons q2 qs2 =>
      simp only [joinSep, List.flatten_cons]
      rw [dropDots, List.filter_append]
      rw [List.filter_eq_self.mpr (fun c hc => by
        simp only [bne_iff_ne, ne_eq]
        intro hdot
        exact h q (by simp) (hdot ▸ hc))]
      have h2 : List.filter (· != '.') ('.' :: joinSep '.' (q2 :: qs2)) =
          dropDots (joinSep '.' (q2 :: qs2)) := by
        simp [dropDots, List.filter_cons]
      rw [h2, ih (fun p hp => h p (by simp [hp]))]
      simp [List.flatten_cons]

theorem mergeDots_eq_keepFirstDot (l : List Char) : mergeDots l = keepFirstDot l := by
  rw [mergeDots]
  rcases h : splitOnChar '.' l with _ | ⟨p, ps⟩
  · exact absurd h (splitOnChar_ne_nil '.' l)
  · by_cases hlen : ps.length > 1
    · simp only [if_pos hlen]
      have hdec : l = joinSep '.' (p :: ps) := by
        rw [← h, joinSep_splitOnChar]
      have hmem := not_mem_of_mem_splitOnChar '.' l
      rw [h] at hmem
      cases ps with
      | nil => simp at hlen
      | cons q qs =>
        rw [hdec]
        have : joinSep '.' (p :: q :: qs) = p ++ '.' :: joinSep '.' (q :: qs) := by
          simp [joinSep]
        rw [this, keepFirstDot_append_dot p _ (hmem p (by simp)),
          dropDots_joinSep (q :: qs) (fun r hr => hmem r (by simp [hr]))]
    · simp only [if_neg hlen]
      have hcount : l.countP (· == '.') ≤ 1 := by
        have := length_splitOnChar '.' l
        rw [h] at this
        simp only [List.length_cons] at this
        omega
      exact (keepFirstDot_eq_self l hcount).symm

/-- C8: the normalizer agrees, on every input string, with the spec-side
pipeline (strip to digits/dot/minus, keep the first dot and concatenate the
remaining fragments, leading dot to `0.`, trailing dot dropped, degenerate
result to `"0"`), and it maps `""`, `"."`, `"-"`, `"1.2.3"` and `".5"` to
`"0"`, `"0"`, `"0"`, `"1.23"` and `"0.5"` respectively. -/
theorem claim_C8 :
    (∀ l : List Char, formatReadingValue l = normSpec l) ∧
    formatReadingValue "".toList = "0".toList ∧
    formatReadingValue ".".toList = "0".toList ∧
    formatReadingValue "-".toList = "0".toList ∧
    formatReadingValue "1.2.3".toList = "1.23".toList ∧
    formatReadingValue ".5".toList = "0.5".toList := by
  refine ⟨fun l => ?_, by decide, by decide, by decide, by decide, by decide⟩
  by_cases h : l = []
  · subst h; rfl
  · simp only [formatReadingValue, normSpec, if_neg h, mergeDots_eq_keepFirstDot]

theorem keepFirstDot_cons_dot (cs : List Char) :
    keepFirstDot ('.' :: cs) = '.' :: dropDots cs := by
  simp [keepFirstDot]

theorem keepFirstDot_cons_ne (c : Char) (cs : List Char) (hc : c ≠ '.') :
    keepFirstDot (c :: cs) = c :: keepFirstDot cs := by
  simp [keepFirstDot, hc]

theorem mem_keepFirstDot (l : List Char) (c : Char) (hc : c ∈ keepFirstDot l) :
    c ∈ l ∨ c = '.' := by
  induction l with
  | nil => simp [keepFirstDot] at hc
  | cons x xs ih =>
    by_cases hx : x = '.'
    · subst hx
      rw [keepFirstDot_cons_dot] at hc
      simp only [List.mem_cons] at hc
      rcases hc with hc | hc
      · exact Or.inr hc
      · exact Or.inl (List.mem_cons_of_mem _ (List.mem_of_mem_filter hc))
    · rw [keepFirstDot_cons_ne _ _ hx] at hc
      simp only [List.mem_cons] at hc
      rcases hc with hc | hc
      · exact Or.inl (by simp [hc])
      · rcases ih hc with h | h
        · exact Or.inl (List.mem_cons_of_mem _ h)
        · exact Or.inr h

theorem countP_dot_keepFirstDot (l : List Char) :
    (keepFirstDot l).countP (· == '.') ≤ 1 := by
  induction l with
  | nil => simp [keepFirstDot]
  | cons x xs ih =>
    by_cases hx : x = '.'
    · subst hx
      rw [keepFirstDot_cons_dot, List.countP_cons]
      have hz : (dropDots xs).countP (· == '.') = 0 := by
        rw [countP_dot_eq_zero_iff]
        intro hmem
        have := List.mem_filter.mp hmem
        simp at this
      simp [hz]
    · rw [keepFirstDot_cons_ne _ _ hx, List.countP_cons]
      have hb : (x == '.') = false := by simpa using hx
      simp only [hb, if_false, Nat.add_zero]
      exact ih

theorem fixLeadingDot_eq_self (l : List Char) (h : l.head? ≠ some '.') :
    fixLeadingDot l = l := by
  unfold fixLeadingDot
  split
  · simp at h
  · rfl

theorem head?_fixLeadingDot (l : List Char) : (fixLeadingDot l).head? ≠ some '.' := by
  unfold fixLeadingDot
  split
  · simp
  · next hno =>
    rcases l with _ | ⟨c, cs⟩
    · simp
    · have hc : c ≠ '.' := fun h => hno cs (by rw [h])
      simpa using hc

theorem mem_fixLeadingDot (l : List Char) (c : Char) (hc : c ∈ fixLeadingDot l) :
    c ∈ l ∨ c = '0' := by
  revert hc
  unfold fixLeadingDot
  split
  · intro hc
    simp only [List.mem_cons] at hc
    rcases hc with hc | hc
    · exact Or.inr hc
    · exact Or.inl (by simpa using hc)
  · intro hc
    exact Or.inl hc

theorem countP_dot_fixLeadingDot (l : List Char) :
    (fixLeadingDot l).countP (· == '.') = l.countP (· == '.') := by
  unfold fixLeadingDot
  split
  · simp [List.countP_cons]
  · rfl

theorem fixTrailingDot_eq_self (l : List Char) (h : l.getLast? ≠ some '.') :
    fixTrailingDot l = l := by
  rw [fixTrailingDot, if_neg h]

theorem mem_fixTrailingDot (l : List Char) (c : Char) (hc : c ∈ fixTrailingDot l) :
    c ∈ l := by
  rw [fixTrailingDot] at hc
  split at hc
  · exact (List.dropLast_sublist l).mem hc
  · exact hc

theorem countP_fixTrailingDot_le (l : List Char) (p : Char → Bool) :
    (fixTrailingDot l).countP p ≤ l.countP p := by
  rw [fixTrailingDot]
  split
  · exact (List.dropLast_sublist l).countP_le p
  · exact Nat.le_refl _

theorem head?_fixTrailingDot (l : List Char) (h : fixTrailingDot l ≠ []) :
    (fixTrailingDot l).head? = l.head? := by
  by_cases hl : l.getLast? = some '.'
  · rw [fixTrailingDot, if_pos hl] at h ⊢
    rcases l with _ | ⟨a, as⟩
    · simp at h
    · rcases as with _ | ⟨b, bs⟩
      · simp at h
      · simp [List.dropLast]
  · rw [fixTrailingDot, if_neg hl]

theorem getLast?_fixTrailingDot (l : List Char) (h : l.countP (· == '.') ≤ 1) :
    (fixTrailingDot l).getLast? ≠ some '.' := by
  by_cases hl : l.getLast? = some '.'
  · rw [fixTrailingDot, if_pos hl]
    have hne : l ≠ [] := by rintro rfl; simp at hl
    have hdecomp : l.dropLast ++ [l.getLast hne] = l := List.dropLast_append_getLast hne
    have hlast : l.getLast hne = '.' := by
      have heq := List.getLast?_eq_getLast_of_ne_nil hne
      rw [heq] at hl
      exact Option.some.inj hl
    have hcount : l.dropLast.countP (· == '.') = 0 := by
      have hsum : l.countP (· == '.') = l.dropLast.countP (· == '.') + 1 := by
        conv_lhs => rw [← hdecomp]
        rw [List.countP_append, hlast]
        simp
      omega
    intro hcontra
    have hmem : '.' ∈ l.dropLast := by
      obtain ⟨hne2, heq⟩ := List.mem_getLast?_eq_getLast (Option.mem_def.mpr hcontra)
      rw [heq]
      exact List.getLast_mem hne2
    rw [countP_dot_eq_zero_iff] at hcount
    exact hcount hmem
  · rw [fixTrailingDot, if_neg hl]
    exact hl

theorem format_fixpoint (r : List Char)
    (hall : ∀ c ∈ r, keepChar c = true)
    (hdots : r.countP (· == '.') ≤ 1)
    (hhead : r.head? ≠ some '.')
    (hlast : r.getLast? ≠ some '.')
    (hne : r ≠ []) (hminus : r ≠ ['-']) (hdot : r ≠ ['.']) :
    formatReadingValue r = r := by
  have h1 : r.filter keepChar = r := List.filter_eq_self.mpr hall
  have hguard : ¬(r = [] ∨ r = ['-'] ∨ r = ['.']) := by
    push_neg
    exact ⟨hne, hminus, hdot⟩
  simp only [formatReadingValue, if_neg hne, h1, mergeDots_eq_keepFirstDot,
    keepFirstDot_eq_self r hdots, fixLeadingDot_eq_self r hhead,
    fixTrailingDot_eq_self r hlast, if_neg hguard]

/-- C9: the reading value normalizer is idempotent: normalizing an already
normalized string returns it unchanged, for every input string. -/
theorem claim_C9 :
    ∀ l : List Char, formatReadingValue (formatReadingValue l) = formatReadingValue l := by
  intro l
  by_cases h0 : l = []
  · subst h0
    decide
  · have hformat : formatReadingValue l =
        if fixTrailingDot (fixLeadingDot (mergeDots (l.filter keepChar))) = [] ∨
            fixTrailingDot (fixLeadingDot (mergeDots (l.filter keepChar))) = ['-'] ∨
            fixTrailingDot (fixLeadingDot (mergeDots (l.filter keepChar))) = ['.'] then ['0']
        else fixTrailingDot (fixLeadingDot (mergeDots (l.filter keepChar))) := by
      simp only [formatReadingValue, if_neg h0]
    by_cases hg : fixTrailingDot (fixLeadingDot (mergeDots (l.filter keepChar))) = [] ∨
        fixTrailingDot (fixLeadingDot (mergeDots (l.filter keepChar))) = ['-'] ∨
        fixTrailingDot (fixLeadingDot (mergeDots (l.filter keepChar))) = ['.']
    · rw [hformat, if_pos hg]
      decide
    · rw [hformat, if_neg hg]
      push_neg at hg
      obtain ⟨hne, hminus, hdot⟩ := hg
      have hkc : ∀ c ∈ fixTrailingDot (fixLeadingDot (mergeDots (l.filter keepChar))),
          keepChar c = true := by
        intro c hc
        have hc1 := mem_fixTrailingDot _ _ hc
        rcases mem_fixLeadingDot _ _ hc1 with hc2 | hc2
        · rw [mergeDots_eq_keepFirstDot] at hc2
          rcases mem_keepFirstDot _ _ hc2 with hc3 | hc3
          · exact (List.mem_filter.mp hc3).2
          · subst hc3
            decide
        · subst hc2
          decide
      have hd1 : (mergeDots (l.filter keepChar)).countP (· == '.') ≤ 1 := by
        rw [mergeDots_eq_keepFirstDot]
        exact countP_dot_keepFirstDot _
      have hd2 : (fixLeadingDot (mergeDots (l.filter keepChar))).countP (· == '.') ≤ 1 := by
        rw [countP_dot_fixLeadingDot]
        exact hd1
      have hd3 : (fixTrailingDot (fixLeadingDot (mergeDots (l.filter keepChar)))).countP
          (· == '.') ≤ 1 :=
        Nat.le_trans (countP_fixTrailingDot_le _ _) hd2
      have hh : (fixTrailingDot (fixLeadingDot (mergeDots (l.filter keepChar)))).head? ≠
          some '.' := by
        rw [head?_fixTrailingDot _ hne]
        exact head?_fixLeadingDot _
      have hlst := getLast?_fixTrailingDot (fixLeadingDot (mergeDots (l.filter keepChar))) hd2
      exact format_fixpoint _ hkc hd3 hh hlst hne hminus hdot

/-! ## The confidence scorer (`calculateConfidence`, opencv-service.ts) -/

/-- Number of active segments of a state
(`Object.values(segmentState).filter(Boolean).length`). -/
def activeCount (s : SegmentState) : Nat :=
  ([s.a, s.b, s.c, s.d, s.e, s.f, s.g].filter id).length

/-- Models the JavaScript check `!isNaN(parseFloat(s))` on strings over the
sign/digit/dot alphabet produced by `formatReadingValue` (an external
`Number` builtin): `parseFloat` yields a number exactly when, after one
optional leading sign, the string starts with a digit or with a dot followed
by a digit. -/
def jsParsesAsNumber (l : List Char) : Bool :=
  match (match l with
         | '-' :: r => r
         | '+' :: r => r
         | r => r) with
  | [] => false
  | '.' :: r =>
    match r with
    | d :: _ => d.isDigit
    | [] => false
  | c :: _ => c.isDigit

/-- Loop body of `calculateConfidence`: accumulates (totalConfidence,
validDigits) over one segment state. -/
def confStep (acc : ℚ × Nat) (s : SegmentState) : ℚ × Nat :=
  let activeSegments := activeCount s
  if 2 ≤ activeSegments ∧ activeSegments ≤ 7 then
    (acc.1 + (8/10 + ((activeSegments : ℚ) / 7) * (2/10)), acc.2 + 1)
  else if activeSegments = 1 then (acc.1 + 6/10, acc.2 + 1)
  else (acc.1 + 1/10, acc.2 + 1)

/-- The confidence scorer `calculateConfidence` of `opencv-service.ts`:
per-digit bucketed confidence, averaged, then boosted (and capped at 1) or
discounted depending on whether the normalized value parses as a number. -/
def calculateConfidence (segments : List SegmentState) (rawValue : List Char) : ℚ :=
  if segments.length = 0 then 0
  else
    let total := segments.foldl confStep (0, 0)
    let averageConfidence := if total.2 > 0 then total.1 / (total.2 : ℚ) else 0
    if jsParsesAsNumber (formatReadingValue rawValue) then
      min (averageConfidence * (12/10)) 1
    else averageConfidence * (7/10)

/-- Per-digit base confidence exactly as the spec words it: 0.1 for zero
active segments, 0.6 for one, and 0.8 + (count/7)·0.2 for two to seven. -/
def baseConf (s : SegmentState) : ℚ :=
  if activeCount s = 0 then 1/10
  else if activeCount s = 1 then 6/10
  else 8/10 + ((activeCount s : ℚ) / 7) * (2/10)

theorem activeCount_le_seven (s : SegmentState) : activeCount s ≤ 7 := by
  have h := List.length_filter_le id [s.a, s.b, s.c, s.d, s.e, s.f, s.g]
  simpa [activeCount] using h

theorem confStep_eq (acc : ℚ × Nat) (s : SegmentState) :
    confStep acc s = (acc.1 + baseConf s, acc.2 + 1) := by
  have h7 := activeCount_le_seven s
  unfold confStep baseConf
  by_cases h0 : activeCount s = 0
  · simp [h0]
  · by_cases h1 : activeCount s = 1
    · simp [h1]
    · have h2 : 2 ≤ activeCount s ∧ activeCount s ≤ 7 := ⟨by omega, h7⟩
      simp [h0, h1, h2]

theorem conf_foldl (segs : List SegmentState) :
    ∀ (t : ℚ) (v : Nat),
      segs.foldl confStep (t, v) = (t + (segs.map baseConf).sum, v + segs.length) := by
  induction segs with
  | nil => intro t v; simp
  | cons s ss ih =>
    intro t v
    rw [List.foldl_cons, confStep_eq, ih]
    refine Prod.ext ?_ ?_
    · simp only [List.map_cons, List.sum_cons]
      ring
    · simp only [List.length_cons]
      omega

/-- C4: the confidence scorer returns 0 for an empty segment sequence;
otherwise it averages the spec's per-digit base confidences (0.1 / 0.6 /
0.8 + (count/7)·0.2) over all digits, then multiplies by 1.2 capped at 1.0
when the normalized value parses as a number, and by 0.7 otherwise. -/
theorem claim_C4 :
    ∀ (segs : List SegmentState) (raw : List Char),
      calculateConfidence segs raw =
        if segs = [] then 0
        else
          if jsParsesAsNumber (formatReadingValue raw) then
            min (((segs.map baseConf).sum / (segs.length : ℚ)) * (12/10)) 1
          else ((segs.map baseConf).sum / (segs.length : ℚ)) * (7/10) := by
  intro segs raw
  rcases segs with _ | ⟨s, ss⟩
  · simp [calculateConfidence]
  · have hlen : (s :: ss).length ≠ 0 := by simp
    simp only [calculateConfidence, if_neg hlen, conf_foldl]
    have hne : (s :: ss) ≠ [] := by simp
    have hpos : (s :: ss).length > 0 := by simp
    simp only [if_neg hne, if_pos hpos, zero_add]

/-! ## The vision pipeline (`useOpenCV` hook) -/

/-- Axis-aligned rectangle in pixel coordinates (OpenCV `boundingRect` /
`cv.Rect`). -/
structure Rect where
  x : Int
  y : Int
  width : Int
  height : Int
deriving DecidableEq, Repr

/-- Binary image handed between the OpenCV primitives: its dimensions and a
white-pixel predicate; `countNonZero` counts positions where it holds. -/
structure BinImg where
  cols : Int
  rows : Int
  white : Int → Int → Bool

/-- Models OpenCV `countNonZero` on the `w × h` region of interest whose
top-left corner sits at `(x0, y0)` of the source image. -/
def countWhite (img : BinImg) (x0 y0 : Int) (w h : Nat) : Nat :=
  ((List.range h).map fun (j : Nat) =>
    ((List.range w).filter fun (i : Nat) =>
      img.white (x0 + (i : Int)) (y0 + (j : Int))).length).sum

/-- Normalized segment geometry: fractions of the digit cell's width and
height, as in the `segments` table of `analyzeSegments`. -/
structure SegPos where
  px : ℚ
  py : ℚ
  pw : ℚ
  ph : ℚ

def segPosA : SegPos := ⟨2/10, 0, 6/10, 15/100⟩
def segPosB : SegPos := ⟨7/10, 0, 15/100, 5/10⟩
def segPosC : SegPos := ⟨7/10, 5/10, 15/100, 5/10⟩
def segPosD : SegPos := ⟨2/10, 85/100, 6/10, 15/100⟩
def segPosE : SegPos := ⟨0, 5/10, 15/100, 5/10⟩
def segPosF : SegPos := ⟨0, 0, 15/100, 5/10⟩
def segPosG : SegPos := ⟨2/10, 42/100, 6/10, 15/100⟩

/-- Floor-rounded x offset of a segment sub-rectangle
(`Math.floor(pos.x * digitRect.width)`). -/
def subX (r : Rect) (pos : SegPos) : Int := ⌊pos.px * (r.width : ℚ)⌋

/-- Floor-rounded y offset of a segment sub-rectangle. -/
def subY (r : Rect) (pos : SegPos) : Int := ⌊pos.py * (r.height : ℚ)⌋

/-- Floor-rounded width of a segment sub-rectangle. -/
def subW (r : Rect) (pos : SegPos) : Int := ⌊pos.pw * (r.width : ℚ)⌋

/-- Floor-rounded height of a segment sub-rectangle. -/
def subH (r : Rect) (pos : SegPos) : Int := ⌊pos.ph * (r.height : ℚ)⌋

/-- In-bounds check of one floored segment sub-rectangle within the digit
rectangle (`x >= 0 && y >= 0 && w > 0 && h > 0 && x + w <= width &&
y + h <= height`). -/
def subRectValid (r : Rect) (pos : SegPos) : Prop :=
  0 ≤ subX r pos ∧ 0 ≤ subY r pos ∧ 0 < subW r pos ∧ 0 < subH r pos ∧
    subX r pos + subW r pos ≤ r.width ∧ subY r pos + subH r pos ≤ r.height

instance (r : Rect) (pos : SegPos) : Decidable (subRectValid r pos) := by
  unfold subRectValid
  infer_instance

/-- White-pixel ratio inside a segment sub-rectangle
(`countNonZero(segmentROI) / (w * h)`); the ROI is taken relative to the
digit rectangle, which itself sits at `(r.x, r.y)` of the binary image. -/
def whiteFrac (img : BinImg) (r : Rect) (pos : SegPos) : ℚ :=
  (countWhite img (r.x + subX r pos) (r.y + subY r pos)
      (subW r pos).toNat (subH r pos).toNat : ℚ) /
    ((subW r pos : ℚ) * (subH r pos : ℚ))

/-- One segment probe of `analyzeSegments`: if the floored sub-rectangle
stays inside the digit rectangle, compare the white-pixel ratio against 0.3,
else force the segment off. -/
def segOn (img : BinImg) (digitRect : Rect) (pos : SegPos) : Bool :=
  if subRectValid digitRect pos then decide (whiteFrac img digitRect pos > 3/10)
  else false

theorem segOn_iff (img : BinImg) (r : Rect) (pos : SegPos) :
    segOn img r pos = true ↔ subRectValid r pos ∧ whiteFrac img r pos > 3/10 := by
  by_cases h : subRectValid r pos <;> simp [segOn, h]

/-- All-off segment state, returned by `analyzeSegments` for invalid digit
rectangles. -/
def allOff : SegmentState := SegmentState.mk false false false false false false false

/-- Validity guard of `analyzeSegments` on the digit rectangle itself. -/
def invalidDigitRect (img : BinImg) (r : Rect) : Prop :=
  r.x < 0 ∨ r.y < 0 ∨ r.width ≤ 0 ∨ r.height ≤ 0 ∨
    r.x + r.width > img.cols ∨ r.y + r.height > img.rows

instance (img : BinImg) (r : Rect) : Decidable (invalidDigitRect img r) := by
  unfold invalidDigitRect
  infer_instance

/-- The segment state extractor `analyzeSegments`: all segments are forced
off for an invalid digit rectangle, otherwise each of a–g is probed on its
normalized sub-rectangle. -/
def analyzeSegments (img : BinImg) (digitRect : Rect) : SegmentState :=
  if invalidDigitRect img digitRect then allOff
  else
    SegmentState.mk (segOn img digitRect segPosA) (segOn img digitRect segPosB)
      (segOn img digitRect segPosC) (segOn img digitRect segPosD)
      (segOn img digitRect segPosE) (segOn img digitRect segPosF)
      (segOn img digitRect segPosG)

/-- Retention test of `detectDisplay` on one bounding rectangle: area
strictly between 500 and 50000 and height/width ratio strictly between 1.2
and 3.0. -/
def rectQualifies (rect : Rect) : Bool :=
  decide (rect.width * rect.height > 500) && decide (rect.width * rect.height < 50000) &&
    decide ((rect.height : ℚ) / (rect.width : ℚ) > 12/10) &&
    decide ((rect.height : ℚ) / (rect.width : ℚ) < 3)

/-- The display region detector `detectDisplay`: the external contour
primitive's bounding rectangles are filtered by `rectQualifies` and sorted
ascending by x (JavaScript stable `sort` with comparator `a.x - b.x`). -/
def detectDisplay (contourRects : List Rect) : List Rect :=
  (contourRects.filter rectQualifies).insertionSort fun a b => a.x ≤ b.x

/-- Spec-side retention criterion of the display region detector, as a
proposition. -/
def specQualifies (r : Rect) : Prop :=
  500 < r.width * r.height ∧ r.width * r.height < 50000 ∧
    (12/10 : ℚ) < (r.height : ℚ) / (r.width : ℚ) ∧ (r.height : ℚ) / (r.width : ℚ) < 3

theorem rectQualifies_iff (r : Rect) : rectQualifies r = true ↔ specQualifies r := by
  simp [rectQualifies, specQualifies, and_assoc]

/-- C7 (amended): the display region detector retains exactly the input
rectangles whose area is strictly between 500 and 50000 and whose
height/width ratio is strictly between 1.2 and 3.0, returns them sorted
ascending by x as a permutation of the filtered input, and returns the empty
sequence when no rectangle qualifies; a single 20×50 blob (area 1000, aspect
ratio 2.5) yields exactly one region, and any blob of area 100 yields zero
regions.  (No integer-sided blob has area 1000 with ratio exactly 2.0; see
the counterexample.) -/
theorem claim_C7 :
    (∀ rects : List Rect,
      (detectDisplay rects).Perm (rects.filter rectQualifies) ∧
      (detectDisplay rects).Sorted (fun a b => a.x ≤ b.x) ∧
      (∀ r : Rect, r ∈ detectDisplay rects ↔ r ∈ rects ∧ specQualifies r) ∧
      ((∀ r ∈ rects, ¬ specQualifies r) → detectDisplay rects = [])) ∧
    detectDisplay [Rect.mk 0 0 20 50] = [Rect.mk 0 0 20 50] ∧
    (20 : Int) * 50 = 1000 ∧
    (∀ r : Rect, r.width * r.height = 100 → detectDisplay [r] = []) := by
  haveI htot : IsTotal Rect (fun a b => a.x ≤ b.x) := ⟨fun a b => Int.le_total a.x b.x⟩
  haveI htrans : IsTrans Rect (fun a b => a.x ≤ b.x) := ⟨fun _ _ _ h1 h2 => le_trans h1 h2⟩
  refine ⟨fun rects => ⟨?_, ?_, ?_, ?_⟩, ?_, by decide, ?_⟩
  · exact List.perm_insertionSort _ _
  · exact List.sorted_insertionSort _ _
  · intro r
    constructor
    · intro hmem
      have hf : r ∈ rects.filter rectQualifies :=
        (List.perm_insertionSort _ _).mem_iff.mp hmem
      have := List.mem_filter.mp hf
      exact ⟨this.1, (rectQualifies_iff r).mp this.2⟩
    · intro ⟨hmem, hq⟩
      have hf : r ∈ rects.filter rectQualifies :=
        List.mem_filter.mpr ⟨hmem, (rectQualifies_iff r).mpr hq⟩
      exact (List.perm_insertionSort _ _).mem_iff.mpr hf
  · intro hnone
    have hfilter : rects.filter rectQualifies = [] := by
      rw [List.filter_eq_nil_iff]
      intro r hr
      intro hq
      exact hnone r hr ((rectQualifies_iff r).mp hq)
    rw [detectDisplay, hfilter]
    rfl
  · have hq : rectQualifies (Rect.mk 0 0 20 50) = true := by
      rw [rectQualifies]
      norm_num
    simp [detectDisplay, List.filter_cons, hq, List.insertionSort, List.orderedInsert]
  · intro r harea
    have hnq : rectQualifies r = false := by
      rw [Bool.eq_false_iff]
      intro hq
      have h5 := ((rectQualifies_iff r).mp hq).1
      rw [harea] at h5
      omega
    simp [detectDisplay, List.filter_cons, hnq, List.insertionSort]

/-- C7 counterexample to the claim as stated: the test scenario of a blob
with area exactly 1000 and height/width aspect ratio exactly 2.0 is
unsatisfiable for integer-sized rectangles (it would need width² = 500), so
no synthetic binary image can realize it. -/
theorem claim_C7_counterexample :
    ¬ ∃ r : Rect, r.width * r.height = 1000 ∧ (r.height : ℚ) / (r.width : ℚ) = 2 := by
  rintro ⟨r, harea, hratio⟩
  have hw0 : (r.width : ℚ) ≠ 0 := by
    intro h0
    rw [h0, div_zero] at hratio
    norm_num at hratio
  have hh : (r.height : ℚ) = 2 * (r.width : ℚ) := by
    rw [div_eq_iff hw0] at hratio
    linarith
  have hhz : r.height = 2 * r.width := by exact_mod_cast hh
  rw [hhz] at harea
  have hsq : r.width * r.width = 500 := by linarith [harea, sq_nonneg r.width]
  rcases Int.even_or_odd r.width with ⟨k, hk⟩ | ⟨k, hk⟩
  · rw [hk] at hsq
    have h4 : 4 * (k * k) = 500 := by linear_combination hsq
    have hk2 : k * k = 125 := by linarith
    rcases Int.even_or_odd k with ⟨m, hm⟩ | ⟨m, hm⟩
    · rw [hm] at hk2
      have hd : (4 : ℤ) ∣ 125 := ⟨m * m, by linear_combination -hk2⟩
      norm_num at hd
    · rw [hm] at hk2
      have h124 : 4 * (m * m + m) = 124 := by linear_combination hk2
      have h31 : m * m + m = 31 := by linarith
      rcases Int.even_or_odd m with ⟨j, hj⟩ | ⟨j, hj⟩
      · rw [hj] at h31
        have hd : (2 : ℤ) ∣ 31 := ⟨2 * (j * j) + j, by linear_combination -h31⟩
        norm_num at hd
      · rw [hj] at h31
        have hd : (2 : ℤ) ∣ 31 := ⟨2 * (j * j) + 3 * j + 1, by linear_combination -h31⟩
        norm_num at hd
  · rw [hk] at hsq
    have hd : (2 : ℤ) ∣ 499 := ⟨2 * (k * k) + 2 * k, by linear_combination -hsq⟩
    norm_num at hd

/-- Accessor/geometry pairs, in the a–g order of the `segments` table. -/
def segPairs : List ((SegmentState → Bool) × SegPos) :=
  [(SegmentState.a, segPosA), (SegmentState.b, segPosB), (SegmentState.c, segPosC),
   (SegmentState.d, segPosD), (SegmentState.e, segPosE), (SegmentState.f, segPosF),
   (SegmentState.g, segPosG)]

/-- C6: the segment state extractor forces all 7 segments off (without
error) when the digit rectangle has non-positive width or height or leaves
the source image; otherwise each segment is on exactly when its floor-rounded
sub-rectangle stays inside the digit rectangle and its white-pixel fraction
is strictly greater than 0.30 (a sub-rectangle out of bounds after rounding
forces its segment off). -/
theorem claim_C6 :
    ∀ (img : BinImg) (rect : Rect),
      (invalidDigitRect img rect → analyzeSegments img rect = allOff) ∧
      (¬ invalidDigitRect img rect →
        ∀ p ∈ segPairs,
          (p.1 (analyzeSegments img rect) = true ↔
            subRectValid rect p.2 ∧ whiteFrac img rect p.2 > 3/10)) := by
  intro img rect
  constructor
  · intro h
    rw [analyzeSegments, if_pos h]
  · intro h p hp
    rw [analyzeSegments, if_neg h]
    simp only [segPairs, List.mem_cons, List.not_mem_nil, or_false] at hp
    rcases hp with rfl | rfl | rfl | rfl | rfl | rfl | rfl
    · exact segOn_iff img rect segPosA
    · exact segOn_iff img rect segPosB
    · exact segOn_iff img rect segPosC
    · exact segOn_iff img rect segPosD
    · exact segOn_iff img rect segPosE
    · exact segOn_iff img rect segPosF
    · exact segOn_iff img rect segPosG

/-- All-white test image of 20 columns and 50 rows. -/
def imgAllWhite : BinImg := ⟨20, 50, fun _ _ => true⟩

/-- Digit cell used by the concrete tests: 20×50 at the origin (area 1000,
aspect ratio 2.5). -/
def rect2050 : Rect := Rect.mk 0 0 20 50

theorem claim_C6_witness :
    analyzeSegments imgAllWhite (Rect.mk 0 0 0 0) = allOff ∧
    (SegmentState.a (analyzeSegments imgAllWhite rect2050) = true ↔
      subRectValid rect2050 segPosA ∧ whiteFrac imgAllWhite rect2050 segPosA > 3/10) := by
  constructor
  · exact (claim_C6 imgAllWhite (Rect.mk 0 0 0 0)).1 (by rw [invalidDigitRect]; norm_num)
  · exact (claim_C6 imgAllWhite rect2050).2
      (by rw [invalidDigitRect]; push_neg; norm_num [imgAllWhite, rect2050])
      (SegmentState.a, segPosA) (by simp [segPairs])

/-! ## The frame pipeline (`processImage`) -/

/-- Detection result of one processed frame (`interface DetectionResult`). -/
structure DetectionResult where
  value : String
  confidence : ℚ
  segments : List SegmentState
deriving Repr

/-- Per-region confidence of `processImage`
(`digit !== '?' ? 0.9 : Math.max(0.1, segmentCount / 7)`). -/
def regionScore (s : SegmentState) : ℚ :=
  if segmentsToDigit s ≠ "?" then 9/10 else max (1/10) ((activeCount s : ℚ) / 7)

/-- Loop body of `processImage` over one detected region: pushes the decoded
digit and its raw segments and accumulates the per-region confidence. -/
def processStep (img : BinImg) (acc : List String × List SegmentState × ℚ)
    (region : Rect) : List String × List SegmentState × ℚ :=
  let segments := analyzeSegments img region
  let digit := segmentsToDigit segments
  (acc.1 ++ [digit], acc.2.1 ++ [segments],
    acc.2.2 + (if digit ≠ "?" then (9 : ℚ)/10 else max (1/10) ((activeCount segments : ℚ) / 7)))

/-- The frame pipeline `processImage`: a failed preprocess (null binary
image) or zero detected regions give the empty zero-confidence result;
otherwise every region is decoded and the per-region confidences averaged.
The preprocess result and the contour bounding rectangles come from external
OpenCV primitives and are explicit inputs here. -/
def processImage (pre : Option BinImg) (contourRects : List Rect) : DetectionResult :=
  match pre with
  | none => ⟨"", 0, []⟩
  | some binaryImage =>
    let digitRegions := detectDisplay contourRects
    if digitRegions = [] then ⟨"", 0, []⟩
    else
      let folded := digitRegions.foldl (processStep binaryImage) ([], [], 0)
      ⟨String.join folded.1, folded.2.2 / (digitRegions.length : ℚ), folded.2.1⟩

theorem processStep_eq (img : BinImg) (acc : List String × List SegmentState × ℚ)
    (region : Rect) :
    processStep img acc region =
      (acc.1 ++ [segmentsToDigit (analyzeSegments img region)],
       acc.2.1 ++ [analyzeSegments img region],
       acc.2.2 + regionScore (analyzeSegments img region)) := rfl

theorem process_foldl (img : BinImg) (regions : List Rect) :
    ∀ (ds : List String) (sg : List SegmentState) (t : ℚ),
      regions.foldl (processStep img) (ds, sg, t) =
        (ds ++ regions.map fun r => segmentsToDigit (analyzeSegments img r),
         sg ++ regions.map fun r => analyzeSegments img r,
         t + (regions.map fun r => regionScore (analyzeSegments img r)).sum) := by
  induction regions with
  | nil => intro ds sg t; simp
  | cons r rs ih =>
    intro ds sg t
    rw [List.foldl_cons, processStep_eq, ih]
    simp [List.map_cons, List.sum_cons, add_assoc]

theorem mem_of_lookup_eq_some {l : List (String × String)} {a b : String}
    (h : l.lookup a = some b) : (a, b) ∈ l := by
  induction l with
  | nil => simp [List.lookup] at h
  | cons p ps ih =>
    rcases p with ⟨k, v⟩
    rw [List.lookup] at h
    by_cases hk : (a == k) = true
    · rw [hk] at h
      have hka : a = k := by simpa using hk
      have hv : v = b := by simpa using h
      simp [hka, hv]
    · rw [Bool.eq_false_iff.mpr hk] at h
      exact List.mem_cons_of_mem _ (ih h)

theorem segmentsToDigit_length (s : SegmentState) : (segmentsToDigit s).length = 1 := by
  rw [segmentsToDigit]
  rcases h : digitPatterns.lookup (patternOf s) with _ | v
  · rfl
  · have hmem : (patternOf s, v) ∈ digitPatterns := mem_of_lookup_eq_some h
    simp only [Option.getD_some]
    have hlen : ∀ p ∈ digitPatterns, (Prod.snd p).length = 1 := by decide
    exact hlen _ hmem

theorem length_stringJoin (ds : List String) :
    (String.join ds).length = (ds.map String.length).sum := by
  suffices h : ∀ init : String,
      (ds.foldl (· ++ ·) init).length = init.length + (ds.map String.length).sum by
    simpa [String.join] using h ""
  induction ds with
  | nil => intro init; simp
  | cons d dsx ih =>
    intro init
    rw [List.foldl_cons, ih]
    simp only [List.map_cons, List.sum_cons, String.length_append]
    omega

/-- C10: the pipeline never throws on malformed or empty frames: when
preprocessing fails (no binary image) or no digit region is detected, the
result is the empty zero-confidence detection. -/
theorem claim_C10 :
    ∀ contourRects : List Rect,
      processImage none contourRects = ⟨"", 0, []⟩ ∧
      ∀ img : BinImg, detectDisplay contourRects = [] →
        processImage (some img) contourRects = ⟨"", 0, []⟩ := by
  intro rects
  constructor
  · rfl
  · intro img h
    simp [processImage, h]

theorem claim_C10_witness :
    processImage none [] = ⟨"", 0, []⟩ ∧
    processImage (some imgAllWhite) [] = ⟨"", 0, []⟩ :=
  ⟨(claim_C10 []).1, (claim_C10 []).2 imgAllWhite rfl⟩

theorem sum_map_constant {α : Type} (l : List α) (c : Nat) :
    (l.map fun _ => c).sum = l.length * c := by
  induction l with
  | nil => simp
  | cons a as ih =>
    simp only [List.map_cons, List.sum_cons, List.length_cons, ih, Nat.succ_mul]
    omega

theorem countWhite_allWhite (x0 y0 : Int) (w h : Nat) :
    countWhite imgAllWhite x0 y0 w h = w * h := by
  rw [countWhite]
  have hrow : ∀ j : Nat,
      ((List.range w).filter fun (i : Nat) =>
        imgAllWhite.white (x0 + (i : Int)) (y0 + (j : Int))).length = w := by
    intro j
    rw [show (fun i : Nat => imgAllWhite.white (x0 + (i : Int)) (y0 + (j : Int))) =
      fun _ => true from rfl]
    rw [List.filter_true]
    exact List.length_range w
  have hmap : ((List.range h).map fun (j : Nat) =>
      ((List.range w).filter fun (i : Nat) =>
        imgAllWhite.white (x0 + (i : Int)) (y0 + (j : Int))).length) =
      (List.range h).map fun _ => w :=
    List.map_congr_left fun j _ => hrow j
  rw [hmap, sum_map_constant, List.length_range]
  exact Nat.mul_comm h w

theorem segOn_allWhite (r : Rect) (pos : SegPos) (hval : subRectValid r pos) :
    segOn imgAllWhite r pos = true := by
  rw [segOn_iff]
  refine ⟨hval, ?_⟩
  obtain ⟨-, -, hw, hh, -, -⟩ := hval
  rw [whiteFrac, countWhite_allWhite]
  have ha : ((subW r pos).toNat : ℤ) = subW r pos := Int.toNat_of_nonneg hw.le
  have hb : ((subH r pos).toNat : ℤ) = subH r pos := Int.toNat_of_nonneg hh.le
  have ha3 : ((subW r pos).toNat : ℚ) = ((subW r pos : ℤ) : ℚ) := by
    rw [← ha]
    norm_cast
  have hb3 : ((subH r pos).toNat : ℚ) = ((subH r pos : ℤ) : ℚ) := by
    rw [← hb]
    norm_cast
  have hcast : (((subW r pos).toNat * (subH r pos).toNat : Nat) : ℚ) =
      ((subW r pos : ℤ) : ℚ) * ((subH r pos : ℤ) : ℚ) := by
    rw [Nat.cast_mul, ha3, hb3]
  have hne : ((subW r pos : ℤ) : ℚ) * ((subH r pos : ℤ) : ℚ) ≠ 0 :=
    mul_ne_zero (by exact_mod_cast ne_of_gt hw) (by exact_mod_cast ne_of_gt hh)
  rw [hcast, div_self hne]
  norm_num

/-- All-on segment state (the pattern of the digit 8). -/
def allOn : SegmentState := SegmentState.mk true true true true true true true

theorem analyze2050 : analyzeSegments imgAllWhite rect2050 = allOn := by
  have hinv : ¬ invalidDigitRect imgAllWhite rect2050 := by
    rw [invalidDigitRect]
    push_neg
    norm_num [imgAllWhite, rect2050]
  have hA : subRectValid rect2050 segPosA := by
    rw [subRectValid]
    norm_num [subX, subY, subW, subH, segPosA, rect2050]
  have hB : subRectValid rect2050 segPosB := by
    rw [subRectValid]
    norm_num [subX, subY, subW, subH, segPosB, rect2050]
  have hC : subRectValid rect2050 segPosC := by
    rw [subRectValid]
    norm_num [subX, subY, subW, subH, segPosC, rect2050]
  have hD : subRectValid rect2050 segPosD := by
    rw [subRectValid]
    norm_num [subX, subY, subW, subH, segPosD, rect2050]
  have hE : subRectValid rect2050 segPosE := by
    rw [subRectValid]
    norm_num [subX, subY, subW, subH, segPosE, rect2050]
  have hF : subRectValid rect2050 segPosF := by
    rw [subRectValid]
    norm_num [subX, subY, subW, subH, segPosF, rect2050]
  have hG : subRectValid rect2050 segPosG := by
    rw [subRectValid]
    norm_num [subX, subY, subW, subH, segPosG, rect2050]
  rw [analyzeSegments, if_neg hinv, segOn_allWhite _ _ hA, segOn_allWhite _ _ hB,
    segOn_allWhite _ _ hC, segOn_allWhite _ _ hD, segOn_allWhite _ _ hE,
    segOn_allWhite _ _ hF, segOn_allWhite _ _ hG]
  rfl

theorem detect2050 : detectDisplay [rect2050] = [rect2050] := by
  have hq : rectQualifies rect2050 = true := by
    rw [rectQualifies]
    norm_num [rect2050]
  simp [detectDisplay, List.filter_cons, hq, List.insertionSort, List.orderedInsert]

theorem digit8 : segmentsToDigit allOn = "8" := by decide

theorem process2050 :
    processImage (some imgAllWhite) [rect2050] =
      DetectionResult.mk "8" (9/10) [allOn] := by
  have hne : ([rect2050] : List Rect) ≠ [] := by simp
  simp only [processImage, detect2050, if_neg hne, List.foldl_cons, List.foldl_nil,
    processStep_eq, analyze2050, digit8, List.nil_append]
  rw [DetectionResult.mk.injEq]
  refine ⟨by trivial, ?_, by trivial⟩
  rw [regionScore, if_pos (by rw [digit8]; simp)]
  norm_num

theorem calcAllOn : calculateConfidence [allOn] "8".toList = 1 := by
  rw [calculateConfidence]
  rw [if_neg (by norm_num)]
  rw [conf_foldl]
  simp only [List.map_cons, List.map_nil, List.sum_cons, List.sum_nil, List.length_cons,
    List.length_nil]
  have hbase : baseConf allOn = 1 := by
    have hact : activeCount allOn = 7 := by decide
    rw [baseConf, hact]
    norm_num
  have hjson : jsParsesAsNumber (formatReadingValue "8".toList) = true := by decide
  rw [hjson, if_pos rfl, hbase]
  rw [if_pos (by norm_num)]
  norm_num [min_def]

/-- C5: whenever at least one digit region is detected, the reported
confidence is the arithmetic mean over the detected regions of the
per-region score (0.9 for a recognized digit, max(0.1, activeCount/7) for
`?`), the result carries one segment state per region, and the value string
has exactly one character per segment entry; moreover the pipeline's
confidence disagrees with the `calculateConfidence` scorer on a concrete
frame, witnessing that `processImage` does not invoke it. -/
theorem claim_C5 :
    (∀ (img : BinImg) (rects : List Rect),
      detectDisplay rects ≠ [] →
        (processImage (some img) rects).confidence =
          ((detectDisplay rects).map fun r => regionScore (analyzeSegments img r)).sum /
            ((detectDisplay rects).length : ℚ) ∧
        (processImage (some img) rects).segments =
          ((detectDisplay rects).map fun r => analyzeSegments img r) ∧
        (processImage (some img) rects).value.length =
          (processImage (some img) rects).segments.length) ∧
    (processImage (some imgAllWhite) [rect2050]).confidence ≠
      calculateConfidence (processImage (some imgAllWhite) [rect2050]).segments
        ((processImage (some imgAllWhite) [rect2050]).value.toList) := by
  constructor
  · intro img rects h
    have hfold := process_foldl img (detectDisplay rects) [] [] 0
    simp only [List.nil_append, zero_add] at hfold
    simp only [processImage, if_neg h, hfold]
    refine ⟨trivial, trivial, ?_⟩
    rw [length_stringJoin, List.map_map]
    have hone : ((detectDisplay rects).map
        (String.length ∘ fun r => segmentsToDigit (analyzeSegments img r))) =
        (detectDisplay rects).map fun _ => 1 :=
      List.map_congr_left fun r _ => segmentsToDigit_length _
    rw [hone, sum_map_constant, List.length_map, Nat.mul_one]
  · rw [process2050]
    show (9/10 : ℚ) ≠ calculateConfidence [allOn] ("8".toList)
    rw [calcAllOn]
    norm_num

theorem claim_C5_witness :
    (processImage (some imgAllWhite) [rect2050]).confidence =
      ((detectDisplay [rect2050]).map fun r =>
        regionScore (analyzeSegments imgAllWhite r)).sum /
        ((detectDisplay [rect2050]).length : ℚ) ∧
    (processImage (some imgAllWhite) [rect2050]).segments =
      ((detectDisplay [rect2050]).map fun r => analyzeSegments imgAllWhite r) ∧
    (processImage (some imgAllWhite) [rect2050]).value.length =
      (processImage (some imgAllWhite) [rect2050]).segments.length :=
  claim_C5.1 imgAllWhite [rect2050] (by rw [detect2050]; simp)

/-! ## The CSV round-trip codec (`csv-service.ts`) -/

/-- Persisted reading record (`Reading` of shared/schema.ts); the timestamp
is held abstractly as epoch milliseconds, since `Date` is an external
builtin. -/
structure Reading where
  id : List Char
  timestamp : Nat
  value : List Char
  quantity : List Char
  unit : List Char
  mode : List Char
  confidence : Option (List Char)
deriving DecidableEq, Repr

/-- Field escaping of `generateCSV` (`escapeCsvField`): wrap in quotes and
double internal quotes when the field contains a comma, quote, or newline. -/
def escapeCsvField (field : List Char) : List Char :=
  if field.contains ',' || field.contains '"' || field.contains '\n' then
    '"' :: (field.flatMap fun c => if c = '"' then ['"', '"'] else [c]) ++ ['"']
  else field

/-- Header line emitted by `generateCSV`. -/
def headerLine : List Char := "timestamp,value,quantity,unit,mode,confidence".toList

/-- JavaScript `s || d` on strings: the default replaces the empty string. -/
def jsOrStr (s d : List Char) : List Char := if s = [] then d else s

/-- Confidence column of a row (`reading.confidence || "0"`). -/
def confFieldOf (c : Option (List Char)) : List Char :=
  match c with
  | none => "0".toList
  | some s => if s = [] then "0".toList else s

/-- One CSV row of `generateCSV`: the template literal
`` `${timestamp},${value},${quantity},${unit},${mode},${confidence}` ``
with quantity and unit escaped.  The ISO timestamp formatter of the external
`Date` builtin is an explicit parameter. -/
def csvRow (toISO : Nat → List Char) (r : Reading) : List Char :=
  toISO r.timestamp ++ ',' :: r.value ++ ',' :: escapeCsvField r.quantity ++
    ',' :: escapeCsvField r.unit ++ ',' :: r.mode ++ ',' :: confFieldOf r.confidence

/-- The CSV encoder `generateCSV`: header-only text for an empty list,
otherwise the header line followed by one newline-joined row per reading. -/
def generateCSV (toISO : Nat → List Char) (readings : List Reading) : List Char :=
  if readings = [] then headerLine ++ ['\n']
  else headerLine ++ '\n' :: joinSep '\n' (readings.map (csvRow toISO))

/-- Character loop of `parseCSVLine`: `current` is the field being built,
`acc` the fields already pushed, the Boolean the in-quotes state; a doubled
quote inside quotes is an escaped literal quote and each pushed field is
trimmed. -/
def parseLineGo : List Char → Bool → List Char → List (List Char) → List (List Char)
  | [], _, current, acc => acc ++ [trimL current]
  | '"' :: '"' :: rest2, true, current, acc =>
    parseLineGo rest2 true (current ++ ['"']) acc
  | c :: rest, inQuotes, current, acc =>
    if c = '"' then
      if inQuotes then parseLineGo rest false current acc
      else parseLineGo rest true current acc
    else if c = ',' && !inQuotes then parseLineGo rest inQuotes [] (acc ++ [trimL current])
    else parseLineGo rest inQuotes (current ++ [c]) acc

/-- The quote-aware field splitter `parseCSVLine`. -/
def parseCSVLine (line : List Char) : List (List Char) :=
  parseLineGo line false [] []

/-- Required headers checked by `parseCSV`. -/
def requiredHeaders : List (List Char) :=
  ["timestamp".toList, "value".toList, "quantity".toList, "unit".toList]

/-- Header normalization of `parseCSV` (`h.trim().toLowerCase()`). -/
def lowerTrim (h : List Char) : List Char := (trimL h).map Char.toLower

/-- Field access of `parseCSV` (`values[headers.indexOf(h)]`): a missing
header gives index −1, whose JavaScript access is `undefined`; it is consumed
only through `||` defaults, for which `undefined` and `""` behave alike, so
both are modelled by `[]`. -/
def lookupField (headers values : List (List Char)) (h : List Char) : List Char :=
  match headers.findIdx? (fun x => x == h) with
  | some idx => values.getD idx []
  | none => []

/-- Row loop of `parseCSV` (lines 82–116 of csv-service.ts): a row with the
wrong field count is skipped, a row whose timestamp fails to parse or whose
value/quantity/unit is empty is skipped, `mode` defaults to `"manual"` and
`confidence` to null; `Date.now()` in the generated id is an external clock
and is omitted. -/
def parseRows (parseDate : List Char → Option Nat) (headers : List (List Char)) :
    List (List Char) → Nat → List Reading
  | [], _ => []
  | line :: rest, i =>
    let values := parseCSVLine line
    if values.length ≠ headers.length then parseRows parseDate headers rest (i + 1)
    else
      let ts := lookupField headers values "timestamp".toList
      let v := lookupField headers values "value".toList
      let q := lookupField headers values "quantity".toList
      let u := lookupField headers values "unit".toList
      let m := jsOrStr (lookupField headers values "mode".toList) "manual".toList
      let cf := if lookupField headers values "confidence".toList = [] then none
                else some (lookupField headers values "confidence".toList)
      match parseDate ts with
      | none => parseRows parseDate headers rest (i + 1)
      | some t =>
        if v = [] ∨ q = [] ∨ u = [] then parseRows parseDate headers rest (i + 1)
        else
          Reading.mk ("csv_".toList ++ (toString i).toList) t v q u m cf ::
            parseRows parseDate headers rest (i + 1)

/-- The CSV decoder `parseCSV`: trim the content, split into lines, fail on
fewer than 2 lines or a missing required header (case-insensitive), then
decode the data rows, skipping malformed ones.  The `Date` parser is an
explicit parameter (`none` models an invalid date, i.e. `NaN` time). -/
def parseCSV (parseDate : List Char → Option Nat) (content : List Char) :
    Except (List Char) (List Reading) :=
  let lines := splitOnChar '\n' (trimL content)
  if lines.length < 2 then
    .error "CSV file must contain at least a header and one data row".toList
  else
    let headers := (splitOnChar ',' (lines.headD [])).map lowerTrim
    let missingHeaders := requiredHeaders.filter fun h => !(headers.contains h)
    if missingHeaders.length > 0 then
      .error ("Missing required CSV headers: ".toList ++
        List.intercalate ", ".toList missingHeaders)
    else .ok (parseRows parseDate headers lines.tail 1)

/-- Normalized headers of a content string, for stating when decoding
fails. -/
def headersOf (content : List Char) : List (List Char) :=
  (splitOnChar ',' ((splitOnChar '\n' (trimL content)).headD [])).map lowerTrim

/-- Unfolding of `parseCSV` used by the structural-failure theorems. -/
theorem parseCSV_eq (pd : List Char → Option Nat) (content : List Char) :
    parseCSV pd content =
      if (splitOnChar '\n' (trimL content)).length < 2 then
        Except.error "CSV file must contain at least a header and one data row".toList
      else if (requiredHeaders.filter fun h =>
          !((headersOf content).contains h)).length > 0 then
        Except.error ("Missing required CSV headers: ".toList ++
          List.intercalate ", ".toList (requiredHeaders.filter fun h =>
            !((headersOf content).contains h)))
      else .ok (parseRows pd (headersOf content)
        (splitOnChar '\n' (trimL content)).tail 1) :=
  rfl

/-- C2 (amended): decoding fails exactly when the trimmed content has fewer
than 2 newline-separated lines or one of the required headers timestamp,
value, quantity, unit is missing after case-insensitive normalization;
individual malformed data rows never make it fail.  Header-only content
(header plus trailing newline) is a single line after trimming, so it fails
with the FormatError rather than decoding to an empty list. -/
theorem claim_C2 :
    (∀ (parseDate : List Char → Option Nat) (content : List Char),
      (parseCSV parseDate content).isOk = false ↔
        ((splitOnChar '\n' (trimL content)).length < 2 ∨
          ∃ h ∈ requiredHeaders, h ∉ headersOf content)) ∧
    (∀ parseDate : List Char → Option Nat,
      (parseCSV parseDate
        ("timestamp,value,quantity,unit,mode,confidence\n".toList)).isOk = false) := by
  have hkey : ∀ (hs : List (List Char)) (h : List Char),
      hs.contains h = true ↔ h ∈ hs := by
    intro hs h
    simp [List.contains, List.elem_iff]
  constructor
  · intro pd content
    have hmiss : (requiredHeaders.filter fun h =>
        !((headersOf content).contains h)).length > 0 ↔
        ∃ h ∈ requiredHeaders, h ∉ headersOf content := by
      rw [gt_iff_lt, List.length_pos]
      constructor
      · intro hne
        rcases List.exists_mem_of_ne_nil _ hne with ⟨h, hh⟩
        have hf := List.mem_filter.mp hh
        refine ⟨h, hf.1, fun hmem => ?_⟩
        have hc := (hkey (headersOf content) h).mpr hmem
        rw [hc] at hf
        simp at hf
      · rintro ⟨h, hreq, hnot⟩ hnil
        rw [List.filter_eq_nil_iff] at hnil
        have hfalse := hnil h hreq
        have hc : (headersOf content).contains h = false := by
          rw [Bool.eq_false_iff]
          intro habs
          exact hnot ((hkey (headersOf content) h).mp habs)
        rw [hc] at hfalse
        simp at hfalse
    rw [parseCSV_eq]
    by_cases h1 : (splitOnChar '\n' (trimL content)).length < 2
    · rw [if_pos h1]
      exact ⟨fun _ => Or.inl h1, fun _ => rfl⟩
    · rw [if_neg h1]
      by_cases h2 : (requiredHeaders.filter fun h =>
          !((headersOf content).contains h)).length > 0
      · rw [if_pos h2]
        exact ⟨fun _ => Or.inr (hmiss.mp h2), fun _ => rfl⟩
      · rw [if_neg h2]
        constructor
        · intro habs
          simp [Except.isOk, Except.toBool] at habs
        · intro hor
          rcases hor with hor | hor
          · exact absurd hor h1
          · exact absurd (hmiss.mpr hor) h2
  · intro pd
    have h1 : (splitOnChar '\n'
        (trimL ("timestamp,value,quantity,unit,mode,confidence\n".toList))).length < 2 := by
      decide
    rw [parseCSV_eq, if_pos h1]
    rfl

/-- C2 counterexample to the claim as stated: decoding header-only content
(what `generateCSV` emits for an empty reading list) raises the FormatError
instead of yielding an empty reading list, because the decoder trims the
trailing newline first and then sees a single line. -/
theorem claim_C2_counterexample :
    parseCSV (fun _ => none)
        ("timestamp,value,quantity,unit,mode,confidence\n".toList) =
      Except.error "CSV file must contain at least a header and one data row".toList := by
  have h1 : (splitOnChar '\n'
      (trimL ("timestamp,value,quantity,unit,mode,confidence\n".toList))).length < 2 := by
    decide
  rw [parseCSV_eq, if_pos h1]

/-- True when an optional character is absent or not whitespace. -/
def noWsAt (o : Option Char) : Bool :=
  match o with
  | none => true
  | some c => !c.isWhitespace

/-- Plain CSV field: no comma, quote, or newline, and no surrounding
whitespace (so the field is unchanged by the decoder's trimming). -/
def plainFieldB (l : List Char) : Bool :=
  l.all (fun c => c != ',' && c != '"' && c != '\n') && noWsAt l.head? && noWsAt l.getLast?

/-- Well-formed reading for the round-trip: value, quantity, unit, and mode
are nonempty plain fields (as the schema's decimal-string / enum-like
columns are), and the optional confidence is plain. -/
def WFReading (r : Reading) : Prop :=
  plainFieldB r.value = true ∧ r.value ≠ [] ∧
  plainFieldB r.quantity = true ∧ r.quantity ≠ [] ∧
  plainFieldB r.unit = true ∧ r.unit ≠ [] ∧
  plainFieldB r.mode = true ∧ r.mode ≠ [] ∧
  plainFieldB (r.confidence.getD []) = true

theorem plain_chars (l : List Char) (h : plainFieldB l = true) :
    ∀ c ∈ l, c ≠ ',' ∧ c ≠ '"' ∧ c ≠ '\n' := by
  intro c hc
  rw [plainFieldB] at h
  simp only [Bool.and_eq_true, List.all_eq_true] at h
  have := h.1.1 c hc
  simpa [and_assoc] using this

theorem dropWhile_head_not (p : Char → Bool) (l : List Char)
    (h : ∀ c, l.head? = some c → p c = false) : l.dropWhile p = l := by
  cases l with
  | nil => rfl
  | cons c cs =>
    rw [List.dropWhile_cons, h c rfl]
    simp

theorem plain_trim (l : List Char) (h : plainFieldB l = true) : trimL l = l := by
  rw [plainFieldB] at h
  simp only [Bool.and_eq_true] at h
  rw [trimL]
  rw [show l.dropWhile Char.isWhitespace = l from dropWhile_head_not _ _ (fun c hc => by
    have h2 := h.1.2
    rw [hc] at h2
    simpa [noWsAt] using h2)]
  rw [show l.reverse.dropWhile Char.isWhitespace = l.reverse from
    dropWhile_head_not _ _ (fun c hc => by
      rw [List.head?_reverse] at hc
      have h2 := h.2
      rw [hc] at h2
      simpa [noWsAt] using h2)]
  exact List.reverse_reverse l

theorem contains_eq_mem (l : List Char) (c : Char) : l.contains c = true ↔ c ∈ l := by
  simp [List.contains, List.elem_iff]

theorem escapeCsvField_eq_self (q : List Char) (h : plainFieldB q = true) :
    escapeCsvField q = q := by
  have hch := plain_chars q h
  rw [escapeCsvField, if_neg]
  intro habs
  simp only [Bool.or_eq_true] at habs
  rcases habs with (hc | hc) | hc
  · exact (hch ',' ((contains_eq_mem q ',').mp hc)).1 rfl
  · exact (hch '"' ((contains_eq_mem q '"').mp hc)).2.1 rfl
  · exact (hch '\n' ((contains_eq_mem q '\n').mp hc)).2.2 rfl

theorem mem_joinSep (sep : Char) :
    ∀ (ps : List (List Char)) (c : Char), c ∈ joinSep sep ps → c = sep ∨ ∃ p ∈ ps, c ∈ p := by
  intro ps
  induction ps with
  | nil => intro c hc; simp [joinSep] at hc
  | cons q qs ih =>
    intro c hc
    cases qs with
    | nil =>
      rw [show joinSep sep [q] = q from rfl] at hc
      exact Or.inr ⟨q, by simp, hc⟩
    | cons q2 qs2 =>
      rw [show joinSep sep (q :: q2 :: qs2) = q ++ sep :: joinSep sep (q2 :: qs2) from rfl] at hc
      rw [List.mem_append] at hc
      rcases hc with hc | hc
      · exact Or.inr ⟨q, by simp, hc⟩
      · rw [List.mem_cons] at hc
        rcases hc with hc | hc
        · exact Or.inl hc
        · rcases ih c hc with hs | ⟨p, hp, hcp⟩
          · exact Or.inl hs
          · exact Or.inr ⟨p, by simp [hp], hcp⟩

theorem joinSep_ne_nil (sep : Char) :
    ∀ (ps : List (List Char)), ps ≠ [] → (∀ p ∈ ps, p ≠ []) → joinSep sep ps ≠ [] := by
  intro ps
  induction ps with
  | nil => intro h _; exact absurd rfl h
  | cons q qs _ =>
    intro _ hall
    cases qs with
    | nil => exact hall q (by simp)
    | cons q2 qs2 =>
      rw [show joinSep sep (q :: q2 :: qs2) = q ++ sep :: joinSep sep (q2 :: qs2) from rfl]
      simp

theorem getLast?_joinSep (sep : Char) :
    ∀ (ps : List (List Char)) (q : List Char), (∀ p ∈ ps, p ≠ []) →
      ps.getLast? = some q → (joinSep sep ps).getLast? = q.getLast? := by
  intro ps
  induction ps with
  | nil => intro q _ h; simp at h
  | cons p ps' ih =>
    intro q hall hlast
    cases ps' with
    | nil =>
      have : p = q := by simpa using hlast
      subst this
      rfl
    | cons r rs =>
      rw [List.getLast?_cons_cons] at hlast
      rw [show joinSep sep (p :: r :: rs) = p ++ sep :: joinSep sep (r :: rs) from rfl]
      rw [List.getLast?_append_of_ne_nil _ (by simp)]
      have hJ : joinSep sep (r :: rs) ≠ [] :=
        joinSep_ne_nil sep (r :: rs) (by simp) (fun x hx => hall x (by simp [hx]))
      rw [show (sep :: joinSep sep (r :: rs)) = [sep] ++ joinSep sep (r :: rs) from rfl]
      rw [List.getLast?_append_of_ne_nil _ hJ]
      exact ih q (fun x hx => hall x (by simp [hx])) hlast

theorem splitOnChar_of_not_mem (sep : Char) :
    ∀ (l : List Char), sep ∉ l → splitOnChar sep l = [l] := by
  intro l
  induction l with
  | nil => intro _; rfl
  | cons c cs ih =>
    intro h
    have hc : c ≠ sep := fun hc => h (by simp [hc])
    rw [splitOnChar, ih (fun hm => h (by simp [hm]))]
    simp [hc]

theorem splitOnChar_append_plain (sep : Char) :
    ∀ (p l : List Char), sep ∉ p →
      splitOnChar sep (p ++ l) =
        (p ++ (splitOnChar sep l).headD []) :: (splitOnChar sep l).tail := by
  intro p
  induction p with
  | nil =>
    intro l _
    rcases h : splitOnChar sep l with _ | ⟨q, qs⟩
    · exact absurd h (splitOnChar_ne_nil sep l)
    · simp [h]
  | cons c p' ih =>
    intro l hp
    have hc : c ≠ sep := fun hc => hp (by simp [hc])
    rw [List.cons_append, splitOnChar, ih l (fun hm => hp (by simp [hm]))]
    simp [hc]

theorem splitOnChar_joinSep (sep : Char) :
    ∀ (ps : List (List Char)), ps ≠ [] → (∀ p ∈ ps, sep ∉ p) →
      splitOnChar sep (joinSep sep ps) = ps := by
  intro ps
  induction ps with
  | nil => intro h _; exact absurd rfl h
  | cons p ps' ih =>
    intro _ hall
    cases ps' with
    | nil =>
      rw [show joinSep sep [p] = p from rfl]
      exact splitOnChar_of_not_mem sep p (hall p (by simp))
    | cons q qs =>
      rw [show joinSep sep (p :: q :: qs) = p ++ sep :: joinSep sep (q :: qs) from rfl]
      rw [splitOnChar_append_plain sep p _ (hall p (by simp))]
      have hrest : splitOnChar sep (sep :: joinSep sep (q :: qs)) =
          [] :: splitOnChar sep (joinSep sep (q :: qs)) := by
        rw [splitOnChar]
        rcases h : splitOnChar sep (joinSep sep (q :: qs)) with _ | ⟨r, rs⟩
        · exact absurd h (splitOnChar_ne_nil sep _)
        · simp
      rw [hrest, ih (by simp) (fun x hx => hall x (by simp [hx]))]
      simp

theorem parseLineGo_nil (inQ : Bool) (cur : List Char) (acc : List (List Char)) :
    parseLineGo [] inQ cur acc = acc ++ [trimL cur] := rfl

theorem parseLineGo_other (c : Char) (rest : List Char) (cur : List Char)
    (acc : List (List Char)) (hq : c ≠ '"') (hc : c ≠ ',') :
    parseLineGo (c :: rest) false cur acc = parseLineGo rest false (cur ++ [c]) acc := by
  simp [parseLineGo, hq, hc]

theorem parseLineGo_comma (rest : List Char) (cur : List Char) (acc : List (List Char)) :
    parseLineGo (',' :: rest) false cur acc = parseLineGo rest false [] (acc ++ [trimL cur]) := by
  simp [parseLineGo]

theorem parseLineGo_field (f : List Char) (hplain : ∀ c ∈ f, c ≠ ',' ∧ c ≠ '"') :
    ∀ (rest cur : List Char) (acc : List (List Char)),
      parseLineGo (f ++ rest) false cur acc = parseLineGo rest false (cur ++ f) acc := by
  induction f with
  | nil => intro rest cur acc; simp
  | cons c f' ih =>
    intro rest cur acc
    have hc := hplain c (by simp)
    rw [List.cons_append, parseLineGo_other c _ _ _ hc.2 hc.1]
    rw [ih (fun x hx => hplain x (by simp [hx])) rest (cur ++ [c]) acc]
    have : (cur ++ [c]) ++ f' = cur ++ c :: f' := by simp
    rw [this]

theorem parseLineGo_joinSep :
    ∀ (fs : List (List Char)), fs ≠ [] →
      (∀ f ∈ fs, ∀ c ∈ f, c ≠ ',' ∧ c ≠ '"') →
      ∀ acc, parseLineGo (joinSep ',' fs) false [] acc = acc ++ fs.map trimL := by
  intro fs
  induction fs with
  | nil => intro h _; exact absurd rfl h
  | cons f fs' ih =>
    intro _ hplain acc
    cases fs' with
    | nil =>
      rw [show joinSep ',' [f] = f from rfl]
      have h1 := parseLineGo_field f (hplain f (by simp)) [] [] acc
      rw [List.append_nil] at h1
      rw [h1, parseLineGo_nil]
      simp
    | cons g gs =>
      rw [show joinSep ',' (f :: g :: gs) = f ++ ',' :: joinSep ',' (g :: gs) from rfl]
      rw [parseLineGo_field f (hplain f (by simp)) _ _ acc, List.nil_append,
        parseLineGo_comma]
      rw [ih (by simp) (fun x hx => hplain x (by simp [hx])) (acc ++ [trimL f])]
      simp

theorem parseCSVLine_joinSep (fs : List (List Char)) (hne : fs ≠ [])
    (hplain : ∀ f ∈ fs, ∀ c ∈ f, c ≠ ',' ∧ c ≠ '"') :
    parseCSVLine (joinSep ',' fs) = fs.map trimL := by
  have h := parseLineGo_joinSep fs hne hplain []
  simpa [parseCSVLine] using h

theorem plain_head (l : List Char) (h : plainFieldB l = true) : noWsAt l.head? = true := by
  rw [plainFieldB] at h
  simp only [Bool.and_eq_true] at h
  exact h.1.2

theorem plain_last (l : List Char) (h : plainFieldB l = true) : noWsAt l.getLast? = true := by
  rw [plainFieldB] at h
  simp only [Bool.and_eq_true] at h
  exact h.2

theorem trimL_eq_self_of_noWs (l : List Char) (h1 : noWsAt l.head? = true)
    (h2 : noWsAt l.getLast? = true) : trimL l = l := by
  rw [trimL]
  rw [show l.dropWhile Char.isWhitespace = l from dropWhile_head_not _ _ (fun c hc => by
    rw [hc] at h1
    simpa [noWsAt] using h1)]
  rw [show l.reverse.dropWhile Char.isWhitespace = l.reverse from
    dropWhile_head_not _ _ (fun c hc => by
      rw [List.head?_reverse] at hc
      rw [hc] at h2
      simpa [noWsAt] using h2)]
  exact List.reverse_reverse l

/-- Normalized header list produced from the emitted header line. -/
def headers6 : List (List Char) :=
  ["timestamp".toList, "value".toList, "quantity".toList, "unit".toList,
   "mode".toList, "confidence".toList]

/-- The six fields of one emitted row, in column order. -/
def rowFields (toISO : Nat → List Char) (r : Reading) : List (List Char) :=
  [toISO r.timestamp, r.value, escapeCsvField r.quantity, escapeCsvField r.unit,
   r.mode, confFieldOf r.confidence]

theorem csvRow_eq_joinSep (toISO : Nat → List Char) (r : Reading) :
    csvRow toISO r = joinSep ',' (rowFields toISO r) := by
  simp [csvRow, rowFields, joinSep]

theorem lookupField_ts (f1 f2 f3 f4 f5 f6 : List Char) :
    lookupField headers6 [f1, f2, f3, f4, f5, f6] "timestamp".toList = f1 := by
  rw [lookupField,
    show headers6.findIdx? (fun x => x == "timestamp".toList) = some 0 from by decide]
  rfl

theorem lookupField_v (f1 f2 f3 f4 f5 f6 : List Char) :
    lookupField headers6 [f1, f2, f3, f4, f5, f6] "value".toList = f2 := by
  rw [lookupField,
    show headers6.findIdx? (fun x => x == "value".toList) = some 1 from by decide]
  rfl

theorem lookupField_q (f1 f2 f3 f4 f5 f6 : List Char) :
    lookupField headers6 [f1, f2, f3, f4, f5, f6] "quantity".toList = f3 := by
  rw [lookupField,
    show headers6.findIdx? (fun x => x == "quantity".toList) = some 2 from by decide]
  rfl

theorem lookupField_u (f1 f2 f3 f4 f5 f6 : List Char) :
    lookupField headers6 [f1, f2, f3, f4, f5, f6] "unit".toList = f4 := by
  rw [lookupField,
    show headers6.findIdx? (fun x => x == "unit".toList) = some 3 from by decide]
  rfl

theorem lookupField_m (f1 f2 f3 f4 f5 f6 : List Char) :
    lookupField headers6 [f1, f2, f3, f4, f5, f6] "mode".toList = f5 := by
  rw [lookupField,
    show headers6.findIdx? (fun x => x == "mode".toList) = some 4 from by decide]
  rfl

theorem lookupField_cf (f1 f2 f3 f4 f5 f6 : List Char) :
    lookupField headers6 [f1, f2, f3, f4, f5, f6] "confidence".toList = f6 := by
  rw [lookupField,
    show headers6.findIdx? (fun x => x == "confidence".toList) = some 5 from by decide]
  rfl

theorem confField_plain (r : Reading) (h : WFReading r) :
    plainFieldB (confFieldOf r.confidence) = true ∧ confFieldOf r.confidence ≠ [] := by
  have hcf := h.2.2.2.2.2.2.2.2
  rcases hc : r.confidence with _ | s
  · rw [confFieldOf]
    exact ⟨by decide, by decide⟩
  · rw [hc] at hcf
    simp only [Option.getD_some] at hcf
    rw [confFieldOf]
    by_cases hs : s = []
    · rw [if_pos hs]
      exact ⟨by decide, by decide⟩
    · rw [if_neg hs]
      exact ⟨hcf, hs⟩

theorem rowFields_plain (toISO : Nat → List Char) (r : Reading) (hWF : WFReading r)
    (hiso : plainFieldB (toISO r.timestamp) = true ∧ toISO r.timestamp ≠ []) :
    ∀ f ∈ rowFields toISO r, plainFieldB f = true ∧ f ≠ [] := by
  obtain ⟨hv, hvne, hq, hqne, hu, hune, hm, hmne, -⟩ := id hWF
  intro f hf
  simp only [rowFields, List.mem_cons, List.not_mem_nil, or_false] at hf
  rcases hf with rfl | rfl | rfl | rfl | rfl | rfl
  · exact hiso
  · exact ⟨hv, hvne⟩
  · rw [escapeCsvField_eq_self _ hq]
    exact ⟨hq, hqne⟩
  · rw [escapeCsvField_eq_self _ hu]
    exact ⟨hu, hune⟩
  · exact ⟨hm, hmne⟩
  · exact confField_plain r hWF

theorem parseCSVLine_csvRow (toISO : Nat → List Char) (r : Reading) (hWF : WFReading r)
    (hiso : plainFieldB (toISO r.timestamp) = true ∧ toISO r.timestamp ≠ []) :
    parseCSVLine (csvRow toISO r) = rowFields toISO r := by
  rw [csvRow_eq_joinSep]
  rw [parseCSVLine_joinSep _ (by simp [rowFields]) (fun f hf c hc => by
    have hp := (rowFields_plain toISO r hWF hiso f hf).1
    have hch := plain_chars f hp c hc
    exact ⟨hch.1, hch.2.1⟩)]
  have hmap : (rowFields toISO r).map trimL = (rowFields toISO r).map id :=
    List.map_congr_left fun f hf =>
      plain_trim f (rowFields_plain toISO r hWF hiso f hf).1
  rw [hmap, List.map_id]

theorem parseRows_csvRows (toISO : Nat → List Char) (pd : List Char → Option Nat)
    (hiso : ∀ t, plainFieldB (toISO t) = true ∧ toISO t ≠ [])
    (hpd : ∀ t, pd (toISO t) ≠ none) :
    ∀ (rs : List Reading), (∀ r ∈ rs, WFReading r) → ∀ (i : Nat),
      (parseRows pd headers6 (rs.map (csvRow toISO)) i).length = rs.length ∧
      (parseRows pd headers6 (rs.map (csvRow toISO)) i).map
        (fun r => (r.value, r.quantity, r.unit, r.mode)) =
        rs.map (fun r => (r.value, r.quantity, r.unit, r.mode)) := by
  intro rs
  induction rs with
  | nil => intro _ i; simp [parseRows]
  | cons r rs' ih =>
    intro hall i
    have hWF := hall r (by simp)
    have hparse := parseCSVLine_csvRow toISO r hWF (hiso r.timestamp)
    rw [List.map_cons]
    simp only [parseRows]
    rw [hparse]
    rw [if_neg (by simp [rowFields, headers6])]
    simp only [rowFields]
    rw [lookupField_ts, lookupField_v, lookupField_q, lookupField_u, lookupField_m,
      lookupField_cf]
    rcases hts : pd (toISO r.timestamp) with _ | t
    · exact absurd hts (hpd r.timestamp)
    · simp only [hts]
      obtain ⟨hv, hvne, hq, hqne, hu, hune, hm, hmne, -⟩ := id hWF
      rw [escapeCsvField_eq_self _ hq, escapeCsvField_eq_self _ hu]
      rw [if_neg (by push_neg; exact ⟨hvne, hqne, hune⟩)]
      rw [show jsOrStr r.mode "manual".toList = r.mode from by rw [jsOrStr, if_neg hmne]]
      have hih := ih (fun x hx => hall x (by simp [hx])) (i + 1)
      constructor
      · simp [hih.1]
      · simp only [List.map_cons, hih.2]

/-- C1 (amended): for every nonempty sequence of well-formed readings,
decoding the encoded CSV text succeeds and yields the same number of rows
with value, quantity, unit, and mode equal to those of the corresponding
inputs.  (Well-formed: schema-conforming fields — nonempty, no comma, quote,
newline, or surrounding whitespace; the external `Date` collaborators are
explicit parameters constrained to emit plain, parseable ISO text.)  For the empty
sequence the encoder emits header-only text whose decode fails; see the
counterexample. -/
theorem claim_C1 :
    ∀ (toISO : Nat → List Char) (parseDate : List Char → Option Nat) (rs : List Reading),
      rs ≠ [] →
      (∀ r ∈ rs, WFReading r) →
      (∀ t, plainFieldB (toISO t) = true ∧ toISO t ≠ []) →
      (∀ t, parseDate (toISO t) ≠ none) →
      ∃ out, parseCSV parseDate (generateCSV toISO rs) = Except.ok out ∧
        out.length = rs.length ∧
        out.map (fun r => (r.value, r.quantity, r.unit, r.mode)) =
          rs.map (fun r => (r.value, r.quantity, r.unit, r.mode)) := by
  intro toISO pd rs hne hWF hiso hpd
  have hrowsne : rs.map (csvRow toISO) ≠ [] := fun h => hne (List.map_eq_nil_iff.mp h)
  have hgen : generateCSV toISO rs = joinSep '\n' (headerLine :: rs.map (csvRow toISO)) := by
    rw [generateCSV, if_neg hne]
    rcases hrw : rs.map (csvRow toISO) with _ | ⟨row, rows2⟩
    · exact absurd hrw hrowsne
    · rfl
  have hrowplain : ∀ row ∈ rs.map (csvRow toISO), '\n' ∉ row := by
    intro row hrow
    rw [List.mem_map] at hrow
    obtain ⟨r, hr, rfl⟩ := hrow
    intro hmem
    rw [csvRow_eq_joinSep] at hmem
    rcases mem_joinSep ',' _ '\n' hmem with h | ⟨f, hf, hcf⟩
    · exact absurd h (by decide)
    · have hp := (rowFields_plain toISO r (hWF r hr) (hiso r.timestamp) f hf).1
      exact (plain_chars f hp '\n' hcf).2.2 rfl
  have hallne : ∀ p ∈ headerLine :: rs.map (csvRow toISO), p ≠ [] := by
    intro p hp
    rcases List.mem_cons.mp hp with rfl | hp
    · decide
    · rw [List.mem_map] at hp
      obtain ⟨r, hr, rfl⟩ := hp
      rw [csvRow]
      simp
  -- head and last characters of the text are not whitespace
  have hhead : noWsAt (generateCSV toISO rs).head? = true := by
    rw [hgen]
    rcases hrw : rs.map (csvRow toISO) with _ | ⟨row, rows2⟩
    · exact absurd hrw hrowsne
    · rw [show joinSep '\n' (headerLine :: row :: rows2) =
        headerLine ++ '\n' :: joinSep '\n' (row :: rows2) from rfl]
      rw [show headerLine =
        't' :: "imestamp,value,quantity,unit,mode,confidence".toList from rfl]
      rw [List.cons_append]
      simp only [List.head?_cons, noWsAt]
      decide
  have hlastW : noWsAt (generateCSV toISO rs).getLast? = true := by
    rcases hgl : rs.getLast? with _ | rl
    · rw [List.getLast?_eq_none_iff] at hgl
      exact absurd hgl hne
    · have hrlmem : rl ∈ rs := by
        obtain ⟨hne2, heq⟩ := List.mem_getLast?_eq_getLast (Option.mem_def.mpr hgl)
        rw [heq]
        exact List.getLast_mem hne2
      have hmap_last : (headerLine :: rs.map (csvRow toISO)).getLast? =
          some (csvRow toISO rl) := by
        rcases hrw : rs.map (csvRow toISO) with _ | ⟨row, rows2⟩
        · exact absurd hrw hrowsne
        · rw [List.getLast?_cons_cons, ← hrw, List.getLast?_map, hgl]
          rfl
      rw [hgen, getLast?_joinSep '\n' _ (csvRow toISO rl) hallne hmap_last]
      have hcp := confField_plain rl (hWF rl hrlmem)
      have hcr : (csvRow toISO rl).getLast? = (confFieldOf rl.confidence).getLast? := by
        rw [csvRow]
        rw [List.getLast?_append_of_ne_nil _ (by simp)]
        rw [show (',' :: confFieldOf rl.confidence) =
            [','] ++ confFieldOf rl.confidence from rfl]
        rw [List.getLast?_append_of_ne_nil _ hcp.2]
      rw [hcr]
      exact plain_last _ hcp.1
  have htrim : trimL (generateCSV toISO rs) = generateCSV toISO rs :=
    trimL_eq_self_of_noWs _ hhead hlastW
  have hsplit : splitOnChar '\n' (generateCSV toISO rs) =
      headerLine :: rs.map (csvRow toISO) := by
    rw [hgen]
    refine splitOnChar_joinSep '\n' _ (by simp) ?_
    intro p hp
    rcases List.mem_cons.mp hp with rfl | hp
    · decide
    · exact hrowplain p hp
  have hheaders : (splitOnChar ',' headerLine).map lowerTrim = headers6 := by decide
  have hho : headersOf (generateCSV toISO rs) = headers6 := by
    rw [headersOf, htrim, hsplit]
    simpa using hheaders
  have hlen2 : ¬ (headerLine :: rs.map (csvRow toISO)).length < 2 := by
    rcases hrw : rs.map (csvRow toISO) with _ | ⟨row, rows2⟩
    · exact absurd hrw hrowsne
    · simp
  have hmiss0 : ¬ (requiredHeaders.filter fun h => !(headers6.contains h)).length > 0 := by
    decide
  rw [parseCSV_eq, htrim, hsplit, hho]
  rw [if_neg hlen2, if_neg hmiss0]
  simp only [List.tail_cons]
  obtain ⟨hlen, hmap⟩ := parseRows_csvRows toISO pd hiso hpd rs hWF 1
  exact ⟨_, rfl, hlen, hmap⟩

/-- C1 counterexample to the claim as stated: for the empty sequence the
encoder emits header-only text, and decoding it raises the FormatError
rather than reproducing zero rows. -/
theorem claim_C1_counterexample :
    parseCSV (fun _ => some 0)
        (generateCSV (fun _ => "1970-01-01T00:00:00.000Z".toList) []) =
      Except.error "CSV file must contain at least a header and one data row".toList := by
  have h1 : (splitOnChar '\n'
      (trimL (generateCSV (fun _ => "1970-01-01T00:00:00.000Z".toList) []))).length < 2 := by
    decide
  rw [parseCSV_eq, if_pos h1]

theorem claim_C1_witness :
    ∃ out, parseCSV (fun _ => some 0)
        (generateCSV (fun _ => "1970-01-01T00:00:00.000Z".toList)
          [Reading.mk "id1".toList 0 "5.2".toList "voltage".toList "V".toList
            "manual".toList none]) = Except.ok out ∧
      out.length = 1 ∧
      out.map (fun r => (r.value, r.quantity, r.unit, r.mode)) =
        [("5.2".toList, "voltage".toList, "V".toList, "manual".toList)] :=
  claim_C1 (fun _ => "1970-01-01T00:00:00.000Z".toList) (fun _ => some 0)
    [Reading.mk "id1".toList 0 "5.2".toList "voltage".toList "V".toList
      "manual".toList none]
    (by simp)
    (by
      intro r hr
      rcases List.mem_singleton.mp hr with rfl
      exact ⟨by decide, by decide, by decide, by decide, by decide, by decide, by decide,
        by decide, by decide⟩)
    (fun t => by
      refine ⟨?_, ?_⟩ <;> simp only [] <;> decide)
    (fun t => by simp)

theorem claim_C3_witness :
    patternOf (SegmentState.mk true false true false true false true) ∉
      digitPatterns.map Prod.fst ∧
    segmentsToDigit (SegmentState.mk true false true false true false true) = "?" :=
  ⟨by decide, claim_C3.2.2.2.2.1 true false true false true false true (by decide)⟩

theorem claim_C7_witness : detectDisplay [Rect.mk 0 0 10 10] = [] :=
  claim_C7.2.2.2 (Rect.mk 0 0 10 10) (by decide)

end MeterReader
